import Mathlib

/-!
Verification of the chunked relay upload engine of `commands/zipline.js`
(`ziplinePartialUpload`, lines 301-418, and `sendPartialChunk`, lines 420-491).

Shallow embedding conventions:
* a byte is a `Nat`; a `Buffer` is a `List Nat`; `Buffer.concat`, `slice`
  become `++`, `take`/`drop`;
* the source stream (`dlRes.body`'s async iterator) is a list of fragments:
  each call of `iterator.next()` yields one fragment with `done = false`,
  and the call after the final fragment yields `done = true` with no value;
* the destination server is a function from the request index (0-based, in
  send order) to the reply of that chunk exchange: either an HTTP-level
  failure (`sendPartialChunk` throws on a non-ok status) or a parsed JSON
  body with the three fields the coordinator inspects;
* the transient chunk store (`fs.writeFileSync` / `fs.unlinkSync` of
  `tmpChunkPath`) is a list of staged names; names are the request index,
  which is unique per chunk, standing in for the timestamp+random path;
* each chunk request records the headers built by `sendPartialChunk`
  (session identifier, range start, effective content length, last-chunk
  flag) together with two ghost observations made at slicing time: the
  `done` flag of the iterator and the number of bytes left in the working
  buffer right after the slice, used to state the exhaustion claims;
* the inner slicing `while` is structurally recursive on a fuel argument;
  fuel `buffer.length + 1` is sufficient whenever `0 < CHUNK_SIZE` (each
  pass consumes at least one byte), which every theorem assumes; with
  `CHUNK_SIZE = 0` the source loop itself never terminates.
-/

namespace ZiplineBot

/-- A byte of the relayed file. -/
abbrev Byte := Nat

/-- Parsed JSON body of a chunk response, restricted to the three fields the
coordinator inspects: `resp.files`, `resp.partialIdentifier`,
`resp.partialSuccess === false`. -/
structure ServerBody where
  files : List String
  partialIdentifier : Option String
  partialSuccessFalse : Bool
  deriving Repr, DecidableEq

/-- Outcome of one `sendPartialChunk` exchange: `httpError` models the throw
on a non-ok HTTP status (line 487), `ok` a parsed body. -/
inductive ChunkReply where
  | httpError : ChunkReply
  | ok : ServerBody → ChunkReply
  deriving Repr, DecidableEq

/-- JavaScript truthiness of the optional identifier string
(`if (resp.partialIdentifier)`, line 393): absent and empty are falsy. -/
def strTruthy : Option String → Bool
  | none => false
  | some s => !s.isEmpty

/-- A reply that lets the session continue: HTTP success, no files listed,
and not `partialSuccess === false`. -/
def ChunkReply.continues : ChunkReply → Bool
  | .httpError => false
  | .ok b => b.files.isEmpty && !b.partialSuccessFalse

/-- One chunk request as sent by `sendPartialChunk`: the headers derived
from the coordinator state (lines 456-469), plus two ghost fields recording
what the coordinator saw at slicing time (used only in statements):
`sliceDone` is the iterator `done` flag, `restLen` the bytes left in the
working buffer immediately after this chunk was sliced off. -/
structure ChunkRequest where
  identifier : Option String
  rangeStart : Nat
  bytes : List Byte
  contentLength : Nat
  isLast : Bool
  sliceDone : Bool
  restLen : Nat
  deriving Repr, DecidableEq

/-- Result of one whole `ziplinePartialUpload` run. `completed` is the
early return of the server body carrying files (line 390); `drained` is the
fallthrough `return { partialSuccess: true }` (line 417); `failedPartial`
the throw on `partialSuccess === false` (line 398); `failedHttp` the
propagated `sendPartialChunk` failure; `noFuel` marks fuel exhaustion of
the embedding (unreachable when `0 < CHUNK_SIZE`). -/
inductive RunResult where
  | completed : ServerBody → RunResult
  | drained : RunResult
  | failedPartial : RunResult
  | failedHttp : RunResult
  | noFuel : RunResult
  deriving Repr, DecidableEq

/-- Mutable state of one `ziplinePartialUpload` invocation, together with
the observable traces: requests sent, progress callbacks made, buffered
byte counts observed after each accumulation (line 328-330), and the
currently staged transient-chunk names. -/
structure St where
  accumulated : List Byte
  uploadedBytes : Nat
  partialIdentifier : Option String
  requests : List ChunkRequest
  progress : List (Nat × Nat)
  occupancy : List Nat
  store : List Nat
  deriving Repr, DecidableEq

/-- Result of the inner slicing loop: the loop condition became false
(`exited`, with the leftover working buffer), the run ended inside the loop
(`terminal`), or fuel ran out. -/
inductive SliceOut where
  | exited : List Byte → St → SliceOut
  | terminal : RunResult → St → SliceOut
  | noFuel : List Byte → St → SliceOut
  deriving Repr, DecidableEq

/-- Removal of one staged name, i.e. `fs.unlinkSync(tmpChunkPath)`. -/
def releaseChunk (store : List Nat) (name : Nat) : List Nat :=
  store.filter (fun p => p ≠ name)

/-- The inner slicing loop of `ziplinePartialUpload` (lines 339-406).
`accumulatedChunks` is emptied at line 335 before this loop and repopulated
only after it (line 408-411), so `accumulatedChunks.length === 0` holds
throughout and `isRefEmpty` (line 362) reduces to the working buffer being
empty with `done` observed.  The branch at lines 341-347 is unreachable:
with `done` false the loop guard already requires `CHUNK_SIZE` bytes. -/
def sliceLoop (C decl : Nat) (server : Nat → ChunkReply) (isDone : Bool) :
    Nat → List Byte → St → SliceOut
  | 0, buffer, st => .noFuel buffer st
  | fuel + 1, buffer, st =>
    if C ≤ buffer.length ∨ (isDone = true ∧ 0 < buffer.length) then
      let amount := min buffer.length C
      let sending := buffer.take amount
      let rest := buffer.drop amount
      -- WRITE TO DISK (line 357-358): stage under a collision-free name
      let staged := st.store ++ [st.requests.length]
      let isRefEmpty := rest.isEmpty && isDone
      let effectiveContentLength :=
        if isRefEmpty then st.uploadedBytes + sending.length else decl
      let isLast :=
        decide (effectiveContentLength ≤ st.uploadedBytes + sending.length)
      let req : ChunkRequest :=
        { identifier := st.partialIdentifier
          rangeStart := st.uploadedBytes
          bytes := sending
          contentLength := effectiveContentLength
          isLast := isLast
          sliceDone := isDone
          restLen := rest.length }
      let st1 := { st with requests := st.requests ++ [req], store := staged }
      match server st.requests.length with
      | .httpError =>
        -- sendPartialChunk threw; the finally block (line 401) releases
        .terminal .failedHttp
          { st1 with store := releaseChunk st1.store st.requests.length }
      | .ok body =>
        if body.files.isEmpty = false then
          -- line 389-390: unlink and return the server result at once
          .terminal (.completed body)
            { st1 with store := releaseChunk st1.store st.requests.length }
        else
          let ident1 :=
            if strTruthy body.partialIdentifier then body.partialIdentifier
            else st.partialIdentifier
          let st2 :=
            { st1 with
              partialIdentifier := ident1
              store := releaseChunk st1.store st.requests.length }
          if body.partialSuccessFalse then
            -- line 397-399: throw, after the finally release
            .terminal .failedPartial st2
          else
            -- line 404-405: acknowledge, then report progress
            sliceLoop C decl server isDone fuel rest
              { st2 with
                uploadedBytes := st.uploadedBytes + sending.length
                progress :=
                  st.progress ++ [(st.uploadedBytes + sending.length, decl)] }
    else .exited buffer st

/-- The outer loop of `ziplinePartialUpload` (lines 324-415), structurally
recursive on the remaining fragments; the empty list is the final
`iterator.next()` returning `done = true` with no value.  The middle
`while` (line 333) runs its body at most once per outer iteration when
`0 < CHUNK_SIZE`: the slice loop leaves fewer than `CHUNK_SIZE` buffered
bytes (none at all once `done`), so its guard is false on the re-check;
it is therefore embedded as a conditional. -/
def runLoop (C decl : Nat) (server : Nat → ChunkReply) :
    List (List Byte) → St → RunResult × St
  | [], st =>
    -- done = true: guard is `accumulatedLen >= C || accumulatedLen > 0`
    if C ≤ st.accumulated.length ∨ 0 < st.accumulated.length then
      match sliceLoop C decl server true (st.accumulated.length + 1)
          st.accumulated { st with accumulated := [] } with
      | .terminal r st' => (r, st')
      | .exited buf st' => (.drained, { st' with accumulated := buf })
      | .noFuel buf st' => (.noFuel, { st' with accumulated := buf })
    else (.drained, st)
  | frag :: rest, st =>
    -- a fragment arrived with done = false (lines 327-330)
    let acc1 := st.accumulated ++ frag
    let st1 :=
      { st with
        accumulated := acc1
        occupancy := st.occupancy ++ [acc1.length] }
    if C ≤ acc1.length then
      match sliceLoop C decl server false (acc1.length + 1) acc1
          { st1 with accumulated := [] } with
      | .terminal r st' => (r, st')
      | .exited buf st' =>
        -- push the remainder back (lines 408-411) and read on
        runLoop C decl server rest { st' with accumulated := buf }
      | .noFuel buf st' => (.noFuel, { st' with accumulated := buf })
    else runLoop C decl server rest st1

/-- Initial coordinator state (lines 319-322). -/
def initSt : St :=
  { accumulated := []
    uploadedBytes := 0
    partialIdentifier := none
    requests := []
    progress := []
    occupancy := []
    store := [] }

/-- The chunked upload path `ziplinePartialUpload`, from the first iterator
read to the returned result, for declared length `decl`, chunk size `C`,
server behaviour `server` and source stream `frags`. -/
def ziplinePartialUpload (C decl : Nat) (server : Nat → ChunkReply)
    (frags : List (List Byte)) : RunResult × St :=
  runLoop C decl server frags initSt

/-- Total number of bytes of the source stream. -/
def totalLen (frags : List (List Byte)) : Nat :=
  (frags.map List.length).sum

/-- Total number of bytes carried by a list of requests. -/
def sumSizes (rs : List ChunkRequest) : Nat :=
  (rs.map (fun r => r.bytes.length)).sum

/-- A server that always lets the session continue, assigning identifier
`s` on every chunk. -/
def contServer (s : String) : Nat → ChunkReply :=
  fun _ => .ok ⟨[], some s, false⟩

/-- How one reply updates the held session identifier (line 393-395): a
truthy `partialIdentifier` of an ok reply overwrites the previous one. -/
def identStep : ChunkReply → Option String → Option String
  | .httpError, prev => prev
  | .ok b, prev =>
    if strTruthy b.partialIdentifier then b.partialIdentifier else prev

/-- The session identifier held by the coordinator after the replies to
requests `0 .. n-1` have been processed past the files check. -/
def identAfter (server : Nat → ChunkReply) : Nat → Option String
  | 0 => none
  | n + 1 => identStep (server n) (identAfter server n)

/-- The progress-callback trace produced by acknowledging the given
requests in order, starting from `u` already-uploaded bytes: one call per
request, reporting the advanced byte count and the declared length
(line 405 always passes the original `contentLength` argument). -/
def progressTrace (decl : Nat) : Nat → List ChunkRequest → List (Nat × Nat)
  | _, [] => []
  | u, r :: rs =>
    (u + r.bytes.length, decl) :: progressTrace decl (u + r.bytes.length) rs

/-- Header wellformedness of a single request, as built at lines 360-371:
the effective content length is corrected to `rangeStart + size` exactly
when the chunk was sliced with the stream exhausted and nothing left
buffered, and the last-chunk flag compares the post-chunk offset against
that effective length. -/
def reqWF (decl : Nat) (r : ChunkRequest) : Prop :=
  r.contentLength =
    (if r.sliceDone = true ∧ r.restLen = 0 then r.rangeStart + r.bytes.length
     else decl) ∧
  r.isLast = decide (r.contentLength ≤ r.rangeStart + r.bytes.length)

/-- Structural facts holding for every request list the coordinator can
have sent: header wellformedness, size bounds, all requests except
possibly the final one full-sized and not slicing the stream dry,
contiguous byte ranges, and the session identifier of request `i` being
exactly the one assigned by the replies before it. -/
structure ReqsInv (server : Nat → ChunkReply) (C decl : Nat)
    (rs : List ChunkRequest) : Prop where
  wf : ∀ r ∈ rs, reqWF decl r
  size_bounds : ∀ r ∈ rs, 1 ≤ r.bytes.length ∧ r.bytes.length ≤ C
  sizes_butlast : ∀ i (h : i + 1 < rs.length),
    (rs.get ⟨i, Nat.lt_of_succ_lt h⟩).bytes.length = C
  notref_butlast : ∀ i (h : i + 1 < rs.length),
    (rs.get ⟨i, Nat.lt_of_succ_lt h⟩).sliceDone = true →
    (rs.get ⟨i, Nat.lt_of_succ_lt h⟩).restLen ≠ 0
  range_pos : ∀ i (h : i < rs.length),
    (rs.get ⟨i, h⟩).rangeStart = sumSizes (rs.take i)
  ident_pos : ∀ i (h : i < rs.length),
    (rs.get ⟨i, h⟩).identifier = identAfter server i

/-- Facts holding whenever the coordinator is between chunk exchanges with
the session still alive: no staged artifact, the byte counter equal to the
bytes of all (acknowledged) requests, the held identifier and the progress
trace determined by the replies so far, and every consumed reply one that
continues the session. -/
structure ExitInv (server : Nat → ChunkReply) (C decl : Nat) (st : St) :
    Prop where
  reqs : ReqsInv server C decl st.requests
  store_nil : st.store = []
  upload_eq : st.uploadedBytes = sumSizes st.requests
  ident_eq : st.partialIdentifier = identAfter server st.requests.length
  prog_eq : st.progress = progressTrace decl 0 st.requests
  replies : ∀ i, i < st.requests.length → (server i).continues = true

/-- The invariant at slice-loop entry while the stream is not yet
exhausted: additionally every sent request was full-sized and was not the
one that drained the stream. -/
structure SInv (server : Nat → ChunkReply) (C decl : Nat) (st : St)
    extends ExitInv server C decl st : Prop where
  sizes_full : ∀ r ∈ st.requests, r.bytes.length = C
  notref_all : ∀ r ∈ st.requests, r.sliceDone = true → r.restLen ≠ 0

/-- What the reply to the final request must have been, by terminal
result. -/
def TermClass (server : Nat → ChunkReply) (n : Nat) : RunResult → Prop
  | .completed body => server (n - 1) = .ok body ∧ body.files ≠ []
  | .failedPartial =>
    ∃ b, server (n - 1) = .ok b ∧ b.files = [] ∧ b.partialSuccessFalse = true
  | .failedHttp => server (n - 1) = .httpError
  | .drained => False
  | .noFuel => False

/-- Facts holding when the run ended inside a chunk exchange: the staged
chunk was still released, the byte counter and progress trace cover only
the requests before the final (unacknowledged) one, every reply before the
final one continued the session, and the final reply classifies the
result. -/
structure TermInv (server : Nat → ChunkReply) (C decl : Nat)
    (r : RunResult) (st : St) : Prop where
  reqs : ReqsInv server C decl st.requests
  store_nil : st.store = []
  len_pos : 0 < st.requests.length
  replies_butlast : ∀ i, i + 1 < st.requests.length →
    (server i).continues = true
  upload_eq : st.uploadedBytes = sumSizes st.requests.dropLast
  prog_eq : st.progress = progressTrace decl 0 st.requests.dropLast
  cls : TermClass server st.requests.length r

/-- Full specification of one slice-loop call relative to its entry buffer
and state. -/
def SliceSpec (server : Nat → ChunkReply) (C decl : Nat) (isDone : Bool)
    (buffer0 : List Byte) (st0 : St) : SliceOut → Prop
  | .noFuel _ _ => False
  | .exited buf st =>
    ExitInv server C decl st ∧
    sumSizes st.requests + buf.length = sumSizes st0.requests + buffer0.length ∧
    (isDone = false → buf.length < C ∧ SInv server C decl st) ∧
    (isDone = true → buf = []) ∧
    st.occupancy = st0.occupancy ∧ st.accumulated = st0.accumulated
  | .terminal r st =>
    TermInv server C decl r st ∧
    st.occupancy = st0.occupancy ∧ st.accumulated = st0.accumulated

theorem sumSizes_nil : sumSizes [] = 0 := rfl

theorem sumSizes_cons (r : ChunkRequest) (rs : List ChunkRequest) :
    sumSizes (r :: rs) = r.bytes.length + sumSizes rs := by
  simp [sumSizes]

theorem sumSizes_append (rs rs' : List ChunkRequest) :
    sumSizes (rs ++ rs') = sumSizes rs + sumSizes rs' := by
  simp [sumSizes]

theorem progressTrace_append (decl u : Nat) (rs : List ChunkRequest)
    (r : ChunkRequest) :
    progressTrace decl u (rs ++ [r]) =
      progressTrace decl u rs ++ [(u + sumSizes rs + r.bytes.length, decl)] := by
  induction rs generalizing u with
  | nil => simp [progressTrace, sumSizes]
  | cons x xs ih =>
    simp only [List.cons_append, progressTrace, List.append_eq, ih,
      sumSizes_cons, List.cons.injEq, true_and]
    rw [show u + (x.bytes.length + sumSizes xs) + r.bytes.length
        = u + x.bytes.length + sumSizes xs + r.bytes.length by omega]

theorem progressTrace_snd (decl : Nat) (rs : List ChunkRequest) :
    ∀ u, ∀ p ∈ progressTrace decl u rs, p.2 = decl := by
  induction rs with
  | nil => intro u p hp; simp [progressTrace] at hp
  | cons x xs ih =>
    intro u p hp
    simp only [progressTrace, List.mem_cons] at hp
    rcases hp with h | h
    · rw [h]
    · exact ih _ p h

theorem progressTrace_length (decl : Nat) (rs : List ChunkRequest) :
    ∀ u, (progressTrace decl u rs).length = rs.length := by
  induction rs with
  | nil => intro u; rfl
  | cons x xs ih => intro u; simp [progressTrace, ih]

theorem progressTrace_get (decl : Nat) (rs : List ChunkRequest) :
    ∀ u j (h : j < (progressTrace decl u rs).length),
      (progressTrace decl u rs).get ⟨j, h⟩ =
        (u + sumSizes (rs.take (j + 1)), decl) := by
  induction rs with
  | nil => intro u j h; simp [progressTrace] at h
  | cons x xs ih =>
    intro u j h
    cases j with
    | zero => simp [progressTrace, sumSizes]
    | succ j =>
      have h' : j < (progressTrace decl (u + x.bytes.length) xs).length := by
        simpa [progressTrace] using h
      have := ih (u + x.bytes.length) j h'
      simp only [progressTrace, List.get_cons_succ, this, List.take_succ_cons,
        sumSizes_cons, Prod.mk.injEq, and_true]
      omega

theorem identAfter_cases (server : Nat → ChunkReply) (s : String)
    (hcons : ∀ n b, server n = .ok b → strTruthy b.partialIdentifier = true →
      b.partialIdentifier = some s) :
    ∀ n, identAfter server n = none ∨ identAfter server n = some s := by
  intro n
  induction n with
  | zero => left; rfl
  | succ n ih =>
    unfold identAfter
    cases hsv : server n with
    | httpError => simpa [identStep] using ih
    | ok b =>
      by_cases ht : strTruthy b.partialIdentifier = true
      · right
        simp only [identStep, if_pos ht]
        exact hcons n b hsv ht
      · simpa [identStep, if_neg ht] using ih

theorem identAfter_stays (server : Nat → ChunkReply) (s : String)
    (hcons : ∀ n b, server n = .ok b → strTruthy b.partialIdentifier = true →
      b.partialIdentifier = some s) :
    ∀ n m, n ≤ m → identAfter server n = some s →
      identAfter server m = some s := by
  intro n m
  induction m with
  | zero =>
    intro hm h
    have : n = 0 := Nat.le_zero.mp hm
    rw [← this]; exact h
  | succ m ih =>
    intro hm h
    rcases Nat.le_succ_iff.mp hm with hle | heq
    · unfold identAfter
      cases hsv : server m with
      | httpError => simpa [identStep] using ih hle h
      | ok b =>
        by_cases ht : strTruthy b.partialIdentifier = true
        · simp only [identStep, if_pos ht]
          exact hcons m b hsv ht
        · simpa [identStep, if_neg ht] using ih hle h
    · subst heq; exact h

theorem identAfter_assigned (server : Nat → ChunkReply) (s : String)
    (hcons : ∀ n b, server n = .ok b → strTruthy b.partialIdentifier = true →
      b.partialIdentifier = some s)
    (j : Nat) (b : ServerBody) (hb : server j = .ok b)
    (ht : strTruthy b.partialIdentifier = true) :
    identAfter server (j + 1) = some s := by
  unfold identAfter
  rw [hb]
  simp only [identStep, if_pos ht]
  exact hcons j b hb ht

theorem reqsInv_nil (server : Nat → ChunkReply) (C decl : Nat) :
    ReqsInv server C decl [] := by
  constructor <;> simp

theorem reqsInv_snoc (server : Nat → ChunkReply) (C decl : Nat)
    (rs : List ChunkRequest) (r : ChunkRequest)
    (h : ReqsInv server C decl rs)
    (hfull : ∀ x ∈ rs, x.bytes.length = C)
    (hnr : ∀ x ∈ rs, x.sliceDone = true → x.restLen ≠ 0)
    (hwf : reqWF decl r)
    (hsz : 1 ≤ r.bytes.length ∧ r.bytes.length ≤ C)
    (hrange : r.rangeStart = sumSizes rs)
    (hident : r.identifier = identAfter server rs.length) :
    ReqsInv server C decl (rs ++ [r]) := by
  constructor
  · intro x hx
    rcases List.mem_append.mp hx with hx | hx
    · exact h.wf x hx
    · rw [List.mem_singleton.mp hx]; exact hwf
  · intro x hx
    rcases List.mem_append.mp hx with hx | hx
    · exact h.size_bounds x hx
    · rw [List.mem_singleton.mp hx]; exact hsz
  · intro i hi
    have hi' : i < rs.length := by
      simp only [List.length_append, List.length_singleton] at hi
      omega
    rw [show (rs ++ [r]).get ⟨i, Nat.lt_of_succ_lt hi⟩ = rs.get ⟨i, hi'⟩ by
      simp [List.getElem_append_left, hi']]
    exact hfull _ (rs.get_mem _ _)
  · intro i hi
    have hi' : i < rs.length := by
      simp only [List.length_append, List.length_singleton] at hi
      omega
    rw [show (rs ++ [r]).get ⟨i, Nat.lt_of_succ_lt hi⟩ = rs.get ⟨i, hi'⟩ by
      simp [List.getElem_append_left, hi']]
    exact hnr _ (rs.get_mem _ _)
  · intro i hi
    have hlen : i < rs.length ∨ i = rs.length := by
      simp only [List.length_append, List.length_singleton] at hi
      omega
    rcases hlen with hi' | hi'
    · rw [show (rs ++ [r]).get ⟨i, hi⟩ = rs.get ⟨i, hi'⟩ by
        simp [List.getElem_append_left, hi'],
        List.take_append_of_le_length (Nat.le_of_lt hi')]
      exact h.range_pos i hi'
    · subst hi'
      rw [show (rs ++ [r]).get ⟨rs.length, hi⟩ = r by simp,
        List.take_append_of_le_length (Nat.le_refl _), List.take_length]
      exact hrange
  · intro i hi
    have hlen : i < rs.length ∨ i = rs.length := by
      simp only [List.length_append, List.length_singleton] at hi
      omega
    rcases hlen with hi' | hi'
    · rw [show (rs ++ [r]).get ⟨i, hi⟩ = rs.get ⟨i, hi'⟩ by
        simp [List.getElem_append_left, hi']]
      exact h.ident_pos i hi'
    · subst hi'
      rw [show (rs ++ [r]).get ⟨rs.length, hi⟩ = r by simp]
      exact hident

theorem releaseChunk_last (store : List Nat) (n : Nat) (h : store = []) :
    releaseChunk (store ++ [n]) n = [] := by
  subst h
  simp [releaseChunk]

theorem sumSizes_take_succ (rs : List ChunkRequest) (i : Nat)
    (h : i < rs.length) :
    sumSizes (rs.take (i + 1)) =
      sumSizes (rs.take i) + (rs.get ⟨i, h⟩).bytes.length := by
  rw [List.take_succ, sumSizes_append, List.getElem?_eq_getElem h]
  simp [sumSizes, List.get_eq_getElem]

theorem sliceSpec_mono (server : Nat → ChunkReply) (C decl : Nat)
    (isDone : Bool) (buffer0 buffer1 : List Byte) (st0 st1 : St)
    (out : SliceOut)
    (h : SliceSpec server C decl isDone buffer1 st1 out)
    (hocc : st1.occupancy = st0.occupancy)
    (hacc : st1.accumulated = st0.accumulated)
    (hbal : sumSizes st1.requests + buffer1.length =
      sumSizes st0.requests + buffer0.length) :
    SliceSpec server C decl isDone buffer0 st0 out := by
  cases out with
  | noFuel buf st => exact h
  | terminal r st =>
    obtain ⟨ht, ho, ha⟩ := h
    exact ⟨ht, ho.trans hocc, ha.trans hacc⟩
  | exited buf st =>
    obtain ⟨hex, hb, hnd, hd, ho, ha⟩ := h
    exact ⟨hex, by omega, hnd, hd, ho.trans hocc, ha.trans hacc⟩

theorem sumSizes_of_full (C : Nat) (l : List ChunkRequest)
    (h : ∀ r ∈ l, r.bytes.length = C) :
    sumSizes l = l.length * C := by
  induction l with
  | nil => simp [sumSizes]
  | cons x xs ih =>
    rw [sumSizes_cons, ih (fun r hr => h r (List.mem_cons_of_mem _ hr)),
      h x (List.mem_cons_self _ _)]
    simp [Nat.succ_mul]
    omega

theorem sumSizes_pos (l : List ChunkRequest) (hne : l ≠ [])
    (h : ∀ r ∈ l, 1 ≤ r.bytes.length) : 1 ≤ sumSizes l := by
  cases l with
  | nil => exact absurd rfl hne
  | cons x xs =>
    rw [sumSizes_cons]
    have := h x (List.mem_cons_self _ _)
    omega

theorem sliceLoop_spec (server : Nat → ChunkReply) (C decl : Nat)
    (isDone : Bool) (hC : 0 < C) :
    ∀ fuel buffer st, buffer.length < fuel → SInv server C decl st →
      SliceSpec server C decl isDone buffer st
        (sliceLoop C decl server isDone fuel buffer st) := by
  intro fuel
  induction fuel with
  | zero => intro buffer st hf _; omega
  | succ fuel ih =>
    intro buffer st hf hinv
    by_cases hg : C ≤ buffer.length ∨ (isDone = true ∧ 0 < buffer.length)
    case neg =>
      rw [sliceLoop, if_neg hg]
      push_neg at hg
      refine ⟨hinv.toExitInv, rfl, fun hd => ⟨by omega, hinv⟩, fun hd => ?_,
        rfl, rfl⟩
      have := hg.2 hd
      exact List.length_eq_zero.mp (by omega)
    case pos =>
      have hbufpos : 0 < buffer.length := by
        rcases hg with h | h
        · omega
        · exact h.2
      have hamt1 : 1 ≤ min buffer.length C := by omega
      have hamtle : min buffer.length C ≤ buffer.length := Nat.min_le_left _ _
      have hsl : (buffer.take (min buffer.length C)).length =
          min buffer.length C := by
        rw [List.length_take]
        exact Nat.min_eq_left (Nat.min_le_left _ _)
      have hrl : (buffer.drop (min buffer.length C)).length =
          buffer.length - min buffer.length C := List.length_drop _ _
      have hiff : (((buffer.drop (min buffer.length C)).isEmpty && isDone)
          = true) ↔
          (isDone = true ∧ (buffer.drop (min buffer.length C)).length = 0) := by
        rw [Bool.and_eq_true, List.isEmpty_iff, ← List.length_eq_zero]
        exact and_comm
      rw [sliceLoop, if_pos hg]
      simp only []
      cases hsv : server st.requests.length with
      | httpError =>
        simp only [SliceSpec]
        refine ⟨?_, by simp, by simp⟩
        constructor
        · refine reqsInv_snoc server C decl st.requests _ hinv.reqs
            hinv.sizes_full hinv.notref_all ?_ ?_ ?_ ?_
          · constructor
            · exact if_congr hiff rfl rfl
            · rfl
          · constructor
            · simpa [hsl] using hamt1
            · simpa [hsl] using Nat.min_le_right buffer.length C
          · simpa using hinv.upload_eq
          · simpa using hinv.ident_eq
        · simpa using releaseChunk_last st.store st.requests.length
            hinv.store_nil
        · simp
        · intro i hi
          simp only [List.length_append, List.length_singleton] at hi
          exact hinv.replies i (by omega)
        · simpa using hinv.upload_eq
        · simpa using hinv.prog_eq
        · simp only [TermClass, List.length_append, List.length_singleton,
            Nat.add_sub_cancel]
          exact hsv
      | ok body =>
        simp only []
        by_cases hfiles : body.files.isEmpty = false
        case pos =>
          rw [if_pos hfiles]
          simp only [SliceSpec]
          refine ⟨?_, by simp, by simp⟩
          constructor
          · refine reqsInv_snoc server C decl st.requests _ hinv.reqs
              hinv.sizes_full hinv.notref_all ?_ ?_ ?_ ?_
            · constructor
              · exact if_congr hiff rfl rfl
              · rfl
            · constructor
              · simpa [hsl] using hamt1
              · simpa [hsl] using Nat.min_le_right buffer.length C
            · simpa using hinv.upload_eq
            · simpa using hinv.ident_eq
          · simpa using releaseChunk_last st.store st.requests.length
              hinv.store_nil
          · simp
          · intro i hi
            simp only [List.length_append, List.length_singleton] at hi
            exact hinv.replies i (by omega)
          · simpa using hinv.upload_eq
          · simpa using hinv.prog_eq
          · simp only [TermClass, List.length_append, List.length_singleton,
              Nat.add_sub_cancel]
            refine ⟨hsv, fun hnil => ?_⟩
            rw [hnil] at hfiles
            simp at hfiles
        case neg =>
          rw [if_neg hfiles]
          have hfe : body.files = [] := by
            apply List.isEmpty_iff.mp
            cases hb : body.files.isEmpty
            · exact absurd hb hfiles
            · rfl
          by_cases hpsf : body.partialSuccessFalse = true
          case pos =>
            rw [if_pos hpsf]
            simp only [SliceSpec]
            refine ⟨?_, by simp, by simp⟩
            constructor
            · refine reqsInv_snoc server C decl st.requests _ hinv.reqs
                hinv.sizes_full hinv.notref_all ?_ ?_ ?_ ?_
              · constructor
                · exact if_congr hiff rfl rfl
                · rfl
              · constructor
                · simpa [hsl] using hamt1
                · simpa [hsl] using Nat.min_le_right buffer.length C
              · simpa using hinv.upload_eq
              · simpa using hinv.ident_eq
            · simpa using releaseChunk_last st.store st.requests.length
                hinv.store_nil
            · simp
            · intro i hi
              simp only [List.length_append, List.length_singleton] at hi
              exact hinv.replies i (by omega)
            · simpa using hinv.upload_eq
            · simpa using hinv.prog_eq
            · simp only [TermClass, List.length_append, List.length_singleton,
                Nat.add_sub_cancel]
              exact ⟨body, hsv, hfe, hpsf⟩
          case neg =>
            rw [if_neg hpsf]
            have hcont : (server st.requests.length).continues = true := by
              rw [hsv]
              simp [ChunkReply.continues, hfe, hpsf]
            have hreqs' : ReqsInv server C decl (st.requests ++
                [{ identifier := st.partialIdentifier
                   rangeStart := st.uploadedBytes
                   bytes := buffer.take (min buffer.length C)
                   contentLength :=
                     if ((buffer.drop (min buffer.length C)).isEmpty && isDone)
                         = true then
                       st.uploadedBytes +
                         (buffer.take (min buffer.length C)).length
                     else decl
                   isLast :=
                     decide ((if ((buffer.drop (min buffer.length C)).isEmpty
                           && isDone) = true then
                         st.uploadedBytes +
                           (buffer.take (min buffer.length C)).length
                       else decl) ≤
                       st.uploadedBytes +
                         (buffer.take (min buffer.length C)).length)
                   sliceDone := isDone
                   restLen := (buffer.drop (min buffer.length C)).length }]) := by
              refine reqsInv_snoc server C decl st.requests _ hinv.reqs
                hinv.sizes_full hinv.notref_all ?_ ?_ ?_ ?_
              · constructor
                · exact if_congr hiff rfl rfl
                · rfl
              · constructor
                · simpa [hsl] using hamt1
                · simpa [hsl] using Nat.min_le_right buffer.length C
              · simpa using hinv.upload_eq
              · simpa using hinv.ident_eq
            by_cases hdrain : isDone = true ∧
                buffer.drop (min buffer.length C) = []
            case pos =>
              have hdl : (buffer.drop (min buffer.length C)).length = 0 := by
                rw [hdrain.2]
                rfl
              have hng : ¬(C ≤ (buffer.drop (min buffer.length C)).length ∨
                  (isDone = true ∧
                    0 < (buffer.drop (min buffer.length C)).length)) := by
                rw [hdl]
                rintro (h | ⟨h1, h2⟩)
                · omega
                · omega
              cases fuel with
              | zero => omega
              | succ fuel' =>
                rw [sliceLoop, if_neg hng]
                simp only [SliceSpec]
                refine ⟨?_, ?_, fun hfd => ?_, fun _ => hdrain.2, by simp,
                  by simp⟩
                · constructor
                  · exact hreqs'
                  · simpa using releaseChunk_last st.store st.requests.length
                      hinv.store_nil
                  · simp [sumSizes_append, sumSizes, hinv.upload_eq]
                  · simp only [List.length_append, List.length_singleton]
                    rw [identAfter]
                    rw [hsv]
                    simp [identStep, hinv.ident_eq]
                  · rw [progressTrace_append]
                    simp [hinv.prog_eq, hinv.upload_eq]
                  · intro i hi
                    simp only [List.length_append, List.length_singleton] at hi
                    rcases Nat.lt_succ_iff_lt_or_eq.mp hi with hi' | hi'
                    · exact hinv.replies i hi'
                    · subst hi'
                      exact hcont
                · rw [sumSizes_append]
                  simp only [sumSizes_cons, sumSizes_nil, hsl, hrl]
                  omega
                · rw [hdrain.1] at hfd
                  simp at hfd
            case neg =>
              have hstep : isDone = false ∨
                  0 < (buffer.drop (min buffer.length C)).length := by
                by_cases hd : isDone = true
                · right
                  have : buffer.drop (min buffer.length C) ≠ [] :=
                    fun hh => hdrain ⟨hd, hh⟩
                  have := List.length_pos.mpr this
                  omega
                · left
                  exact Bool.not_eq_true _ |>.mp hd
              have hfull : (buffer.take (min buffer.length C)).length = C := by
                rcases hstep with hd | hpos
                · rcases hg with hcl | hcl
                  · rw [hsl]
                    omega
                  · rw [hd] at hcl
                    simp at hcl
                · rw [hsl]
                  rw [hrl] at hpos
                  omega
              have hfuel' : (buffer.drop (min buffer.length C)).length <
                  fuel := by
                rw [hrl]
                omega
              refine sliceSpec_mono server C decl isDone buffer _ st _ _
                (ih _ _ hfuel' ?_) rfl rfl ?_
              · constructor
                case toExitInv =>
                  constructor
                  · exact hreqs'
                  · simpa using releaseChunk_last st.store st.requests.length
                      hinv.store_nil
                  · simp [sumSizes_append, sumSizes, hinv.upload_eq]
                  · simp only [List.length_append, List.length_singleton]
                    rw [identAfter]
                    rw [hsv]
                    simp [identStep, hinv.ident_eq]
                  · rw [progressTrace_append]
                    simp [hinv.prog_eq, hinv.upload_eq]
                  · intro i hi
                    simp only [List.length_append, List.length_singleton] at hi
                    rcases Nat.lt_succ_iff_lt_or_eq.mp hi with hi' | hi'
                    · exact hinv.replies i hi'
                    · subst hi'
                      exact hcont
                case sizes_full =>
                  intro r hr
                  rcases List.mem_append.mp hr with hr | hr
                  · exact hinv.sizes_full r hr
                  · rw [List.mem_singleton.mp hr]
                    exact hfull
                case notref_all =>
                  intro r hr
                  rcases List.mem_append.mp hr with hr | hr
                  · exact hinv.notref_all r hr
                  · rw [List.mem_singleton.mp hr]
                    intro hd h0
                    have hd2 : isDone = true := hd
                    have h02 : (buffer.drop (min buffer.length C)).length = 0 :=
                      h0
                    rcases hstep with hd' | hpos
                    · rw [hd'] at hd2
                      simp at hd2
                    · omega
              · rw [sumSizes_append]
                simp only [sumSizes_cons, sumSizes_nil, hsl, hrl]
                omega

/-- Full specification of one coordinator run relative to its entry state:
a drained run keeps the between-chunks facts and has sent every byte of the
stream; a terminal run satisfies the terminal facts; fuel never runs out. -/
def RunSpec (server : Nat → ChunkReply) (C decl : Nat)
    (frags : List (List Byte)) (st0 : St) : RunResult × St → Prop
  | (.drained, st) =>
    ExitInv server C decl st ∧
    sumSizes st.requests =
      sumSizes st0.requests + st0.accumulated.length + totalLen frags
  | (.noFuel, _) => False
  | (r, st) => TermInv server C decl r st

theorem totalLen_nil : totalLen [] = 0 := rfl

theorem totalLen_cons (f : List Byte) (fs : List (List Byte)) :
    totalLen (f :: fs) = f.length + totalLen fs := by
  simp [totalLen]

theorem exitInv_upd (server : Nat → ChunkReply) (C decl : Nat) (st : St)
    (acc : List Byte) (h : ExitInv server C decl st) :
    ExitInv server C decl { st with accumulated := acc } :=
  ⟨h.reqs, h.store_nil, h.upload_eq, h.ident_eq, h.prog_eq, h.replies⟩

theorem sinv_upd_acc (server : Nat → ChunkReply) (C decl : Nat) (st : St)
    (acc : List Byte) (h : SInv server C decl st) :
    SInv server C decl { st with accumulated := acc } :=
  ⟨⟨h.reqs, h.store_nil, h.upload_eq, h.ident_eq, h.prog_eq, h.replies⟩,
    h.sizes_full, h.notref_all⟩

theorem sinv_upd (server : Nat → ChunkReply) (C decl : Nat) (st : St)
    (acc : List Byte) (occ : List Nat) (h : SInv server C decl st) :
    SInv server C decl { st with accumulated := acc, occupancy := occ } :=
  ⟨⟨h.reqs, h.store_nil, h.upload_eq, h.ident_eq, h.prog_eq, h.replies⟩,
    h.sizes_full, h.notref_all⟩

theorem sinv_init (server : Nat → ChunkReply) (C decl : Nat) :
    SInv server C decl initSt :=
  ⟨⟨reqsInv_nil server C decl, rfl, rfl, rfl, rfl,
    fun i hi => by simp [initSt] at hi⟩,
    fun r hr => by simp [initSt] at hr,
    fun r hr => by simp [initSt] at hr⟩

theorem runSpec_mono (server : Nat → ChunkReply) (C decl : Nat)
    (frags0 frags1 : List (List Byte)) (st0 st1 : St) (out : RunResult × St)
    (h : RunSpec server C decl frags1 st1 out)
    (hbal : sumSizes st1.requests + st1.accumulated.length + totalLen frags1 =
      sumSizes st0.requests + st0.accumulated.length + totalLen frags0) :
    RunSpec server C decl frags0 st0 out := by
  rcases out with ⟨r, st⟩
  cases r with
  | drained =>
    simp only [RunSpec] at h ⊢
    exact ⟨h.1, by omega⟩
  | noFuel => exact h
  | completed body => exact h
  | failedPartial => exact h
  | failedHttp => exact h

theorem runLoop_spec (server : Nat → ChunkReply) (C decl : Nat) (hC : 0 < C) :
    ∀ frags st, SInv server C decl st →
      RunSpec server C decl frags st (runLoop C decl server frags st) := by
  intro frags
  induction frags with
  | nil =>
    intro st hinv
    rw [runLoop]
    by_cases hg : C ≤ st.accumulated.length ∨ 0 < st.accumulated.length
    case neg =>
      rw [if_neg hg]
      push_neg at hg
      simp only [RunSpec]
      refine ⟨hinv.toExitInv, ?_⟩
      have : st.accumulated.length = 0 := by omega
      rw [totalLen_nil, this]
      omega
    case pos =>
      rw [if_pos hg]
      have hspec := sliceLoop_spec server C decl true hC
        (st.accumulated.length + 1) st.accumulated
        { st with accumulated := [] } (by omega)
        (sinv_upd_acc server C decl st [] hinv)
      cases hslice : sliceLoop C decl server true (st.accumulated.length + 1)
          st.accumulated { st with accumulated := [] } with
      | exited buf st' =>
        rw [hslice] at hspec
        simp only [SliceSpec] at hspec
        obtain ⟨hex, hbal, hnd, hd, hocc, hacc⟩ := hspec
        simp only [RunSpec]
        refine ⟨exitInv_upd server C decl st' buf hex, ?_⟩
        have hbal' : sumSizes st'.requests + buf.length =
            sumSizes st.requests + st.accumulated.length := hbal
        have hbuf : buf = [] := hd (by trivial)
        rw [hbuf] at hbal'
        simp only [List.length_nil] at hbal'
        rw [totalLen_nil]
        omega
      | terminal r st' =>
        rw [hslice] at hspec
        simp only [SliceSpec] at hspec
        obtain ⟨ht, hocc, hacc⟩ := hspec
        cases r with
        | drained => exact absurd ht.cls (by simp [TermClass])
        | noFuel => exact absurd ht.cls (by simp [TermClass])
        | completed body => exact ht
        | failedPartial => exact ht
        | failedHttp => exact ht
      | noFuel buf st' =>
        rw [hslice] at hspec
        simp only [SliceSpec] at hspec
  | cons frag rest ih =>
    intro st hinv
    rw [runLoop]
    simp only []
    by_cases hg : C ≤ (st.accumulated ++ frag).length
    case neg =>
      rw [if_neg hg]
      refine runSpec_mono server C decl (frag :: rest) rest st
        { st with
          accumulated := st.accumulated ++ frag,
          occupancy := st.occupancy ++ [(st.accumulated ++ frag).length] }
        _ (ih _ (sinv_upd server C decl st _ _ hinv)) ?_
      simp only [totalLen_cons, List.length_append]
      omega
    case pos =>
      rw [if_pos hg]
      have hspec := sliceLoop_spec server C decl false hC
        ((st.accumulated ++ frag).length + 1) (st.accumulated ++ frag)
        { st with
          accumulated := [],
          occupancy := st.occupancy ++ [(st.accumulated ++ frag).length] }
        (by omega)
        (sinv_upd server C decl st _ _ hinv)
      cases hslice : sliceLoop C decl server false
          ((st.accumulated ++ frag).length + 1) (st.accumulated ++ frag)
          { st with
            accumulated := [],
            occupancy := st.occupancy ++ [(st.accumulated ++ frag).length] }
        with
      | exited buf st' =>
        rw [hslice] at hspec
        simp only [SliceSpec] at hspec
        obtain ⟨hex, hbal, hnd, hd, hocc, hacc⟩ := hspec
        obtain ⟨hblt, hsinv'⟩ := hnd (by trivial)
        refine runSpec_mono server C decl (frag :: rest) rest st
          { st' with accumulated := buf } _
          (ih _ (sinv_upd_acc server C decl st' buf hsinv')) ?_
        have hbal' : sumSizes st'.requests + buf.length =
            sumSizes st.requests + (st.accumulated ++ frag).length := hbal
        simp only [totalLen_cons, List.length_append] at hbal' ⊢
        omega
      | terminal r st' =>
        rw [hslice] at hspec
        simp only [SliceSpec] at hspec
        obtain ⟨ht, hocc, hacc⟩ := hspec
        cases r with
        | drained => exact absurd ht.cls (by simp [TermClass])
        | noFuel => exact absurd ht.cls (by simp [TermClass])
        | completed body => exact ht
        | failedPartial => exact ht
        | failedHttp => exact ht
      | noFuel buf st' =>
        rw [hslice] at hspec
        simp only [SliceSpec] at hspec

/-- Top-level specification of `ziplinePartialUpload`. -/
theorem ziplinePartialUpload_spec (server : Nat → ChunkReply) (C decl : Nat)
    (hC : 0 < C) (frags : List (List Byte)) :
    RunSpec server C decl frags initSt
      (ziplinePartialUpload C decl server frags) :=
  runLoop_spec server C decl hC frags initSt (sinv_init server C decl)

/-- A server that completes with one file on request `k` and continues the
session on every other request. -/
def filesAt (k : Nat) (s : String) : Nat → ChunkReply :=
  fun n => if n = k then .ok ⟨["f"], none, false⟩ else contServer s n

/-- A server that signals `partialSuccess: false` on request `k` and
continues the session on every other request. -/
def psfAt (k : Nat) (s : String) : Nat → ChunkReply :=
  fun n => if n = k then .ok ⟨[], none, true⟩ else contServer s n

theorem run_reqs (C decl : Nat) (server : Nat → ChunkReply)
    (frags : List (List Byte)) (hC : 0 < C) :
    ReqsInv server C decl
      (ziplinePartialUpload C decl server frags).2.requests := by
  have h := ziplinePartialUpload_spec server C decl hC frags
  rcases ho : ziplinePartialUpload C decl server frags with ⟨r, st⟩
  rw [ho] at h
  cases r with
  | drained => exact (h : RunSpec _ _ _ _ _ (.drained, st)).1.reqs
  | noFuel => exact absurd h (by simp [RunSpec])
  | completed body =>
    exact (h : TermInv server C decl (.completed body) st).reqs
  | failedPartial =>
    exact (h : TermInv server C decl .failedPartial st).reqs
  | failedHttp =>
    exact (h : TermInv server C decl .failedHttp st).reqs

theorem run_replies_butlast (C decl : Nat) (server : Nat → ChunkReply)
    (frags : List (List Byte)) (hC : 0 < C) :
    ∀ i, i + 1 < (ziplinePartialUpload C decl server frags).2.requests.length →
      (server i).continues = true := by
  have h := ziplinePartialUpload_spec server C decl hC frags
  rcases ho : ziplinePartialUpload C decl server frags with ⟨r, st⟩
  rw [ho] at h
  cases r with
  | drained =>
    intro i hi
    have hi' : i + 1 < st.requests.length := hi
    exact (h : RunSpec _ _ _ _ _ (.drained, st)).1.replies i (by omega)
  | noFuel => exact absurd h (by simp [RunSpec])
  | completed body =>
    exact (h : TermInv server C decl (.completed body) st).replies_butlast
  | failedPartial =>
    exact (h : TermInv server C decl .failedPartial st).replies_butlast
  | failedHttp =>
    exact (h : TermInv server C decl .failedHttp st).replies_butlast

/-- C7: on the chunked path every staged chunk file is deleted by the end
of its single upload attempt — whatever the outcome of that attempt — so
the transient store holds no residual staged-chunk artifact once the
coordinator returns, normally or with an error. -/
theorem transient_store_clean (C decl : Nat) (server : Nat → ChunkReply)
    (frags : List (List Byte)) (hC : 0 < C) :
    (ziplinePartialUpload C decl server frags).2.store = [] := by
  have h := ziplinePartialUpload_spec server C decl hC frags
  rcases ho : ziplinePartialUpload C decl server frags with ⟨r, st⟩
  rw [ho] at h
  cases r with
  | drained => exact (h : RunSpec _ _ _ _ _ (.drained, st)).1.store_nil
  | noFuel => exact absurd h (by simp [RunSpec])
  | completed body =>
    exact (h : TermInv server C decl (.completed body) st).store_nil
  | failedPartial =>
    exact (h : TermInv server C decl .failedPartial st).store_nil
  | failedHttp =>
    exact (h : TermInv server C decl .failedHttp st).store_nil

theorem transient_store_clean_witness :
    0 < 2 ∧
    (ziplinePartialUpload 2 6 (psfAt 1 "s") [[1, 2], [3, 4], [5, 6]]).2.store
      = [] :=
  ⟨by decide,
    transient_store_clean 2 6 (psfAt 1 "s") [[1, 2], [3, 4], [5, 6]]
      (by decide)⟩

/-- C6: each chunk request's byte range starts at the sum of the sizes of
the chunks acknowledged before it, and when the run ends in an error
(HTTP failure or partialSuccess:false), the cumulative byte counter equals
the bytes of the requests before the failing one: the counter is advanced
only after a chunk exchange succeeds and is classified non-terminal. -/
theorem uploadedBytes_after_ack (C decl : Nat) (server : Nat → ChunkReply)
    (frags : List (List Byte)) (hC : 0 < C) :
    (∀ i (h : i <
        (ziplinePartialUpload C decl server frags).2.requests.length),
      ((ziplinePartialUpload C decl server frags).2.requests.get
          ⟨i, h⟩).rangeStart =
        sumSizes
          ((ziplinePartialUpload C decl server frags).2.requests.take i)) ∧
    ((ziplinePartialUpload C decl server frags).1 = .failedHttp ∨
      (ziplinePartialUpload C decl server frags).1 = .failedPartial →
      (ziplinePartialUpload C decl server frags).2.uploadedBytes =
        sumSizes
          (ziplinePartialUpload C decl server frags).2.requests.dropLast) := by
  have h := ziplinePartialUpload_spec server C decl hC frags
  rcases ho : ziplinePartialUpload C decl server frags with ⟨r, st⟩
  rw [ho] at h
  cases r with
  | drained =>
    refine ⟨(h : RunSpec _ _ _ _ _ (.drained, st)).1.reqs.range_pos, ?_⟩
    rintro (hr | hr) <;> exact absurd hr (by simp)
  | noFuel => exact absurd h (by simp [RunSpec])
  | completed body =>
    refine ⟨(h : TermInv server C decl (.completed body) st).reqs.range_pos,
      ?_⟩
    rintro (hr | hr) <;> exact absurd hr (by simp)
  | failedPartial =>
    exact ⟨(h : TermInv server C decl .failedPartial st).reqs.range_pos,
      fun _ => (h : TermInv server C decl .failedPartial st).upload_eq⟩
  | failedHttp =>
    exact ⟨(h : TermInv server C decl .failedHttp st).reqs.range_pos,
      fun _ => (h : TermInv server C decl .failedHttp st).upload_eq⟩

theorem uploadedBytes_after_ack_witness :
    0 < 2 ∧
    ((ziplinePartialUpload 2 6 (psfAt 1 "s") [[1, 2], [3, 4], [5, 6]]).1
        = .failedHttp ∨
      (ziplinePartialUpload 2 6 (psfAt 1 "s") [[1, 2], [3, 4], [5, 6]]).1
        = .failedPartial →
      (ziplinePartialUpload 2 6 (psfAt 1 "s")
          [[1, 2], [3, 4], [5, 6]]).2.uploadedBytes =
        sumSizes (ziplinePartialUpload 2 6 (psfAt 1 "s")
          [[1, 2], [3, 4], [5, 6]]).2.requests.dropLast) :=
  ⟨by decide,
    (uploadedBytes_after_ack 2 6 (psfAt 1 "s") [[1, 2], [3, 4], [5, 6]]
      (by decide)).2⟩

/-- C8: if the response body of a chunk that was actually sent signals
`partialSuccess: false` (with no non-empty files list), the whole transfer
aborts with the partial-failure error and that chunk is the last one ever
sent. -/
theorem partial_failure_aborts (C decl : Nat) (server : Nat → ChunkReply)
    (frags : List (List Byte)) (hC : 0 < C) (i : Nat)
    (hi : i < (ziplinePartialUpload C decl server frags).2.requests.length)
    (b : ServerBody) (hb : server i = .ok b) (hbf : b.files = [])
    (hbp : b.partialSuccessFalse = true) :
    (ziplinePartialUpload C decl server frags).1 = .failedPartial ∧
    (ziplinePartialUpload C decl server frags).2.requests.length = i + 1 := by
  have hnotcont : (server i).continues = false := by
    rw [hb]
    simp [ChunkReply.continues, hbf, hbp]
  have hlast : ¬(i + 1 <
      (ziplinePartialUpload C decl server frags).2.requests.length) := by
    intro hlt
    have := run_replies_butlast C decl server frags hC i hlt
    rw [hnotcont] at this
    simp at this
  have h := ziplinePartialUpload_spec server C decl hC frags
  rcases ho : ziplinePartialUpload C decl server frags with ⟨r, st⟩
  rw [ho] at h hi hlast
  have hi' : i < st.requests.length := hi
  have hlast' : ¬(i + 1 < st.requests.length) := hlast
  have hlen : st.requests.length = i + 1 := by omega
  cases r with
  | drained =>
    have := (h : RunSpec _ _ _ _ _ (.drained, st)).1.replies i (by omega)
    rw [hnotcont] at this
    simp at this
  | noFuel => exact absurd h (by simp [RunSpec])
  | completed body =>
    have hcls := (h : TermInv server C decl (.completed body) st).cls
    simp only [TermClass, hlen, Nat.add_sub_cancel] at hcls
    rw [hb] at hcls
    obtain ⟨heq, hne⟩ := hcls
    cases heq
    exact absurd hbf hne
  | failedPartial => exact ⟨rfl, hlen⟩
  | failedHttp =>
    have hcls := (h : TermInv server C decl .failedHttp st).cls
    simp only [TermClass, hlen, Nat.add_sub_cancel] at hcls
    rw [hb] at hcls
    exact absurd hcls (by simp)

theorem partial_failure_aborts_witness :
    (0 < 2 ∧
      1 < (ziplinePartialUpload 2 6 (psfAt 1 "s")
        [[1, 2], [3, 4], [5, 6]]).2.requests.length ∧
      psfAt 1 "s" 1 = .ok ⟨[], none, true⟩) ∧
    (ziplinePartialUpload 2 6 (psfAt 1 "s") [[1, 2], [3, 4], [5, 6]]).1
      = .failedPartial ∧
    (ziplinePartialUpload 2 6 (psfAt 1 "s")
      [[1, 2], [3, 4], [5, 6]]).2.requests.length = 1 + 1 :=
  ⟨⟨by decide, by decide, by decide⟩,
    partial_failure_aborts 2 6 (psfAt 1 "s") [[1, 2], [3, 4], [5, 6]]
      (by decide) 1 (by decide) ⟨[], none, true⟩ (by decide) (by decide)
      (by decide)⟩

/-- C5: the first chunk request carries no session-identifier header, and
once a reply has assigned the identifier (the server assigning `s`
consistently whenever it assigns one), every later chunk request of the
same transfer carries exactly `some s`, unchanged. -/
theorem session_identifier_continuity (C decl : Nat)
    (server : Nat → ChunkReply) (frags : List (List Byte)) (s : String)
    (hC : 0 < C)
    (hcons : ∀ n b, server n = .ok b → strTruthy b.partialIdentifier = true →
      b.partialIdentifier = some s) :
    (∀ h0 : 0 < (ziplinePartialUpload C decl server frags).2.requests.length,
      ((ziplinePartialUpload C decl server frags).2.requests.get
        ⟨0, h0⟩).identifier = none) ∧
    (∀ j i, j < i →
      ∀ hi : i < (ziplinePartialUpload C decl server frags).2.requests.length,
      ∀ b : ServerBody, server j = .ok b →
      strTruthy b.partialIdentifier = true →
      ((ziplinePartialUpload C decl server frags).2.requests.get
        ⟨i, hi⟩).identifier = some s) := by
  have hreqs := run_reqs C decl server frags hC
  constructor
  · intro h0
    rw [hreqs.ident_pos 0 h0]
    rfl
  · intro j i hji hi b hb ht
    rw [hreqs.ident_pos i hi]
    exact identAfter_stays server s hcons (j + 1) i (by omega)
      (identAfter_assigned server s hcons j b hb ht)

theorem session_identifier_continuity_witness :
    0 < 2 ∧
    ((ziplinePartialUpload 2 6 (contServer "sid")
      [[1, 2], [3, 4], [5, 6]]).2.requests.get
        ⟨1, by decide⟩).identifier = some "sid" :=
  ⟨by decide,
    (session_identifier_continuity 2 6 (contServer "sid")
        [[1, 2], [3, 4], [5, 6]] "sid" (by decide)
        (fun n b hb ht => by cases hb; rfl)).2 0 1 (by decide) (by decide)
      ⟨[], some "sid", false⟩ rfl (by decide)⟩

theorem take_dropLast_eq (rs : List ChunkRequest) (k : Nat)
    (hk : k ≤ rs.length - 1) :
    rs.dropLast.take k = rs.take k := by
  rw [List.dropLast_eq_take, List.take_take]
  congr 1
  omega

theorem get_of_trace (decl : Nat) (acked rs : List ChunkRequest)
    (prog : List (Nat × Nat)) (hpr : prog = progressTrace decl 0 acked)
    (hext : ∀ k, k ≤ acked.length → acked.take k = rs.take k)
    (j : Nat) (hj : j < prog.length) :
    prog.get ⟨j, hj⟩ = (sumSizes (rs.take (j + 1)), decl) := by
  subst hpr
  rw [progressTrace_get decl acked 0 j hj]
  have hjlen : j < acked.length := by
    have := progressTrace_length decl acked 0
    omega
  rw [← hext (j + 1) (by omega)]
  simp

/-- C10: the progress callback fires exactly once per chunk whose reply
continues the session — its trace is the prefix-sum trace of the
acknowledged requests — reporting the just-advanced cumulative count and
always the originally declared length as total (never the corrected
effective length); it does not fire for the chunk whose reply ends the run,
so on early completion the last reported count stays below the stream's
true size (concrete instance in the final conjunct). -/
theorem progress_callback_spec (C decl : Nat) (server : Nat → ChunkReply)
    (frags : List (List Byte)) (hC : 0 < C) :
    (∀ p ∈ (ziplinePartialUpload C decl server frags).2.progress,
      p.2 = decl) ∧
    ((ziplinePartialUpload C decl server frags).1 = .drained →
      (ziplinePartialUpload C decl server frags).2.progress =
        progressTrace decl 0
          (ziplinePartialUpload C decl server frags).2.requests) ∧
    ((ziplinePartialUpload C decl server frags).1 ≠ .drained →
      (ziplinePartialUpload C decl server frags).2.progress =
        progressTrace decl 0
          (ziplinePartialUpload C decl server frags).2.requests.dropLast) ∧
    (∀ j (hj : j <
        (ziplinePartialUpload C decl server frags).2.progress.length),
      (ziplinePartialUpload C decl server frags).2.progress.get ⟨j, hj⟩ =
        (sumSizes
          ((ziplinePartialUpload C decl server frags).2.requests.take
            (j + 1)), decl)) ∧
    ((ziplinePartialUpload 2 4 (filesAt 1 "s")
        [[1, 2], [3, 4], [5, 6]]).2.progress = [(2, 4)] ∧
      totalLen [[1, 2], [3, 4], [5, 6]] = 6) := by
  have h := ziplinePartialUpload_spec server C decl hC frags
  rcases ho : ziplinePartialUpload C decl server frags with ⟨r, st⟩
  rw [ho] at h
  have key : (r = .drained ∧
      st.progress = progressTrace decl 0 st.requests) ∨
      (r ≠ .drained ∧
        st.progress = progressTrace decl 0 st.requests.dropLast) := by
    cases r with
    | drained =>
      exact Or.inl ⟨rfl, (h : RunSpec _ _ _ _ _ (.drained, st)).1.prog_eq⟩
    | noFuel => exact absurd h (by simp [RunSpec])
    | completed body =>
      exact Or.inr ⟨by simp,
        (h : TermInv server C decl (.completed body) st).prog_eq⟩
    | failedPartial =>
      exact Or.inr ⟨by simp,
        (h : TermInv server C decl .failedPartial st).prog_eq⟩
    | failedHttp =>
      exact Or.inr ⟨by simp,
        (h : TermInv server C decl .failedHttp st).prog_eq⟩
  refine ⟨?_, ?_, ?_, ?_, by decide, by decide⟩
  · intro p hp
    have hp' : p ∈ st.progress := hp
    rcases key with ⟨_, hpr⟩ | ⟨_, hpr⟩ <;> rw [hpr] at hp' <;>
      exact progressTrace_snd decl _ 0 p hp'
  · intro hr
    have hr' : r = .drained := hr
    rcases key with ⟨_, hpr⟩ | ⟨hne, _⟩
    · exact hpr
    · exact absurd hr' hne
  · intro hr
    have hr' : r ≠ .drained := hr
    rcases key with ⟨hdr, _⟩ | ⟨_, hpr⟩
    · exact absurd hdr hr'
    · exact hpr
  · intro j hj
    have hj' : j < st.progress.length := hj
    rcases key with ⟨_, hpr⟩ | ⟨_, hpr⟩
    · exact get_of_trace decl st.requests st.requests st.progress hpr
        (fun k _ => rfl) j hj'
    · exact get_of_trace decl st.requests.dropLast st.requests st.progress
        hpr (fun k hk => take_dropLast_eq st.requests k
          (by simpa [List.length_dropLast] using hk)) j hj'

theorem progress_callback_spec_witness :
    0 < 2 ∧
    (∀ p ∈ (ziplinePartialUpload 2 4 (filesAt 1 "s")
        [[1, 2], [3, 4], [5, 6]]).2.progress, p.2 = 4) :=
  ⟨by decide,
    (progress_callback_spec 2 4 (filesAt 1 "s") [[1, 2], [3, 4], [5, 6]]
      (by decide)).1⟩

/-- C1 counterexample: chunk size 2, declared length 2, true stream length
4 delivered in one fragment.  The first chunk is flagged last
(`isLast = true`) with 2 unsent source bytes still buffered
(`restLen = 2`), because the flag merely compares the offset against the
declared length; a second chunk, also flagged last, follows.  The claim's
`exactly when the stream is exhausted and nothing remains buffered` is
therefore false on this input. -/
theorem lastchunk_flag_cex :
    ((ziplinePartialUpload 2 2 (contServer "s") [[9, 9, 9, 9]]).2.requests.map
      (fun r => (r.isLast, r.restLen))) = [(true, 2), (true, 0)] ∧
    (ziplinePartialUpload 2 2 (contServer "s") [[9, 9, 9, 9]]).1
      = .drained := by
  decide

/-- C1 (amended): a chunk's last-chunk flag is set exactly when the offset
after the chunk reaches the chunk's effective content length, where the
effective length is corrected to that offset precisely when the chunk was
sliced with the stream exhausted and nothing buffered; in particular a
chunk that drains the stream is always flagged last, but with an
understated declared length a chunk merely reaching the declared length is
flagged last as well, even though unread source bytes remain. -/
theorem lastchunk_flag_amended (C decl : Nat) (server : Nat → ChunkReply)
    (frags : List (List Byte)) (hC : 0 < C) :
    ∀ r ∈ (ziplinePartialUpload C decl server frags).2.requests,
      r.contentLength = (if r.sliceDone = true ∧ r.restLen = 0
        then r.rangeStart + r.bytes.length else decl) ∧
      r.isLast = decide (r.contentLength ≤ r.rangeStart + r.bytes.length) ∧
      (r.sliceDone = true → r.restLen = 0 → r.isLast = true) := by
  intro r hr
  obtain ⟨hcl, hlast⟩ := (run_reqs C decl server frags hC).wf r hr
  refine ⟨hcl, hlast, fun hd h0 => ?_⟩
  rw [hlast, hcl, if_pos ⟨hd, h0⟩]
  simp

theorem lastchunk_flag_amended_witness :
    0 < 2 ∧
    ((ziplinePartialUpload 2 2 (contServer "s")
        [[9, 9, 9, 9]]).2.requests.get ⟨0, by decide⟩).isLast =
      decide (((ziplinePartialUpload 2 2 (contServer "s")
          [[9, 9, 9, 9]]).2.requests.get ⟨0, by decide⟩).contentLength ≤
        ((ziplinePartialUpload 2 2 (contServer "s")
          [[9, 9, 9, 9]]).2.requests.get ⟨0, by decide⟩).rangeStart +
        ((ziplinePartialUpload 2 2 (contServer "s")
          [[9, 9, 9, 9]]).2.requests.get ⟨0, by decide⟩).bytes.length) :=
  ⟨by decide,
    (lastchunk_flag_amended 2 2 (contServer "s") [[9, 9, 9, 9]] (by decide)
      _ (List.get_mem _ _ _)).2.1⟩

/-- C2 counterexample: chunk size 2, declared length 3, true stream length
4 delivered as two 2-byte fragments.  The final chunk goes out with
`x-zipline-p-content-length` 3 (the declared value) although the corrected
value would be `2 + 2 = 4`: the run ends normally and the claimed
correction never happened because the final slice occurred before the
iterator reported the stream exhausted. -/
theorem effective_length_cex :
    ((ziplinePartialUpload 2 3 (contServer "s")
      [[1, 2], [3, 4]]).2.requests.map
        (fun r => (r.rangeStart, r.bytes.length, r.contentLength))) =
      [(0, 2, 3), (2, 2, 3)] ∧
    (ziplinePartialUpload 2 3 (contServer "s") [[1, 2], [3, 4]]).1
      = .drained := by
  decide

/-- C2 (amended): the corrected total — cumulative bytes before the chunk
plus the chunk's size — accompanies a chunk exactly when that chunk was
sliced after the stream's end had been observed with no bytes left
buffered (which is always the case when the true length is not a multiple
of the chunk size); a final chunk sliced before the end of the stream was
observed carries the declared length unchanged. -/
theorem effective_length_amended (C decl : Nat) (server : Nat → ChunkReply)
    (frags : List (List Byte)) (hC : 0 < C) :
    ∀ r ∈ (ziplinePartialUpload C decl server frags).2.requests,
      (r.sliceDone = true ∧ r.restLen = 0 →
        r.contentLength = r.rangeStart + r.bytes.length) ∧
      (¬(r.sliceDone = true ∧ r.restLen = 0) → r.contentLength = decl) := by
  intro r hr
  obtain ⟨hcl, _⟩ := (run_reqs C decl server frags hC).wf r hr
  constructor
  · intro hre
    rw [hcl, if_pos hre]
  · intro hre
    rw [hcl, if_neg hre]

theorem effective_length_amended_witness :
    0 < 2 ∧
    ((ziplinePartialUpload 2 5 (contServer "s")
        [[1, 2], [3]]).2.requests.get ⟨1, by decide⟩).contentLength =
      ((ziplinePartialUpload 2 5 (contServer "s")
        [[1, 2], [3]]).2.requests.get ⟨1, by decide⟩).rangeStart +
      ((ziplinePartialUpload 2 5 (contServer "s")
        [[1, 2], [3]]).2.requests.get ⟨1, by decide⟩).bytes.length :=
  ⟨by decide,
    ((effective_length_amended 2 5 (contServer "s") [[1, 2], [3]]
        (by decide) _ (List.get_mem _ _ _)).1 (by decide))⟩

/-- C4 counterexample: with a server that keeps answering with a session
identifier and never returns a files list, the coordinator still
terminates successfully — the fallthrough `return { partialSuccess: true }`
at line 417 — so a non-empty files list is not the only successful
terminal outcome. -/
theorem completion_only_cex :
    (ziplinePartialUpload 2 2 (contServer "s") [[1, 2]]).1 = .drained ∧
    (ziplinePartialUpload 2 2 (contServer "s")
      [[1, 2]]).2.requests.length = 1 := by
  decide

/-- C4 (amended): when a chunk reply carries a non-empty files list the
coordinator returns that reply's body immediately — the reply belongs to
the final request of the run and every earlier reply merely continued the
session — and the only other successful termination is the drained
fallthrough `{partialSuccess: true}`, reached when every reply continued
and the stream ran out. -/
theorem completion_amended (C decl : Nat) (server : Nat → ChunkReply)
    (frags : List (List Byte)) (hC : 0 < C) :
    (∀ body, (ziplinePartialUpload C decl server frags).1 = .completed body →
      body.files ≠ [] ∧
      server ((ziplinePartialUpload C decl server frags).2.requests.length
        - 1) = .ok body ∧
      (∀ i, i + 1 <
          (ziplinePartialUpload C decl server frags).2.requests.length →
        (server i).continues = true)) ∧
    ((ziplinePartialUpload C decl server frags).1 = .drained →
      ∀ i, i < (ziplinePartialUpload C decl server frags).2.requests.length →
        (server i).continues = true) := by
  have h := ziplinePartialUpload_spec server C decl hC frags
  rcases ho : ziplinePartialUpload C decl server frags with ⟨r, st⟩
  rw [ho] at h
  cases r with
  | drained =>
    refine ⟨fun body hr => absurd hr (by simp), fun _ i hi => ?_⟩
    have hi' : i < st.requests.length := hi
    exact (h : RunSpec _ _ _ _ _ (.drained, st)).1.replies i hi'
  | noFuel => exact absurd h (by simp [RunSpec])
  | completed body' =>
    have ht : TermInv server C decl (.completed body') st := h
    refine ⟨fun body hr => ?_, fun hr => absurd hr (by simp)⟩
    have hb : body' = body := by
      have : RunResult.completed body' = RunResult.completed body := hr
      cases this
      rfl
    subst hb
    obtain ⟨hsv, hne⟩ := ht.cls
    exact ⟨hne, hsv, ht.replies_butlast⟩
  | failedPartial =>
    exact ⟨fun body hr => absurd hr (by simp),
      fun hr => absurd hr (by simp)⟩
  | failedHttp =>
    exact ⟨fun body hr => absurd hr (by simp),
      fun hr => absurd hr (by simp)⟩

theorem completion_amended_witness :
    0 < 2 ∧
    (ziplinePartialUpload 2 6 (filesAt 1 "s") [[1, 2], [3, 4], [5, 6]]).1
      = .completed ⟨["f"], none, false⟩ ∧
    (⟨["f"], none, false⟩ : ServerBody).files ≠ [] ∧
    filesAt 1 "s"
      ((ziplinePartialUpload 2 6 (filesAt 1 "s")
        [[1, 2], [3, 4], [5, 6]]).2.requests.length - 1) =
      .ok ⟨["f"], none, false⟩ := by
  refine ⟨by decide, by decide, ?_, ?_⟩
  · exact ((completion_amended 2 6 (filesAt 1 "s") [[1, 2], [3, 4], [5, 6]]
      (by decide)).1 ⟨["f"], none, false⟩ (by decide)).1
  · exact ((completion_amended 2 6 (filesAt 1 "s") [[1, 2], [3, 4], [5, 6]]
      (by decide)).1 ⟨["f"], none, false⟩ (by decide)).2.1

theorem runLoop_occ (server : Nat → ChunkReply) (C decl : Nat)
    (hC : 0 < C) :
    ∀ frags st, SInv server C decl st →
      (∀ f ∈ frags, f.length ≤ C) →
      st.accumulated.length < C →
      (∀ o ∈ st.occupancy, o ≤ 2 * C) →
      ∀ o ∈ (runLoop C decl server frags st).2.occupancy, o ≤ 2 * C := by
  intro frags
  induction frags with
  | nil =>
    intro st hinv hfr hacc hocc
    rw [runLoop]
    by_cases hg : C ≤ st.accumulated.length ∨ 0 < st.accumulated.length
    case neg =>
      rw [if_neg hg]
      exact hocc
    case pos =>
      rw [if_pos hg]
      have hspec := sliceLoop_spec server C decl true hC
        (st.accumulated.length + 1) st.accumulated
        { st with accumulated := [] } (by omega)
        (sinv_upd_acc server C decl st [] hinv)
      cases hslice : sliceLoop C decl server true (st.accumulated.length + 1)
          st.accumulated { st with accumulated := [] } with
      | exited buf st' =>
        rw [hslice] at hspec
        simp only [SliceSpec] at hspec
        obtain ⟨_, _, _, _, hoc, _⟩ := hspec
        intro o hoo
        have hoo' : o ∈ st'.occupancy := hoo
        rw [hoc] at hoo'
        exact hocc o hoo'
      | terminal r st' =>
        rw [hslice] at hspec
        simp only [SliceSpec] at hspec
        obtain ⟨_, hoc, _⟩ := hspec
        intro o hoo
        have hoo' : o ∈ st'.occupancy := hoo
        rw [hoc] at hoo'
        exact hocc o hoo'
      | noFuel buf st' =>
        rw [hslice] at hspec
        simp only [SliceSpec] at hspec
  | cons frag rest ih =>
    intro st hinv hfr hacc hocc
    rw [runLoop]
    simp only []
    have hflen : frag.length ≤ C := hfr frag (List.mem_cons_self _ _)
    have hfr' : ∀ f ∈ rest, f.length ≤ C :=
      fun f hf => hfr f (List.mem_cons_of_mem _ hf)
    have hocc1 : ∀ o ∈ st.occupancy ++ [(st.accumulated ++ frag).length],
        o ≤ 2 * C := by
      intro o hoo
      rcases List.mem_append.mp hoo with hoo | hoo
      · exact hocc o hoo
      · rw [List.mem_singleton.mp hoo]
        simp only [List.length_append]
        omega
    by_cases hg : C ≤ (st.accumulated ++ frag).length
    case neg =>
      rw [if_neg hg]
      refine ih { st with
          accumulated := st.accumulated ++ frag,
          occupancy := st.occupancy ++ [(st.accumulated ++ frag).length] }
        (sinv_upd server C decl st _ _ hinv) hfr' ?_ hocc1
      have : (st.accumulated ++ frag).length < C := by omega
      exact this
    case pos =>
      rw [if_pos hg]
      have hspec := sliceLoop_spec server C decl false hC
        ((st.accumulated ++ frag).length + 1) (st.accumulated ++ frag)
        { st with
          accumulated := [],
          occupancy := st.occupancy ++ [(st.accumulated ++ frag).length] }
        (by omega)
        (sinv_upd server C decl st _ _ hinv)
      cases hslice : sliceLoop C decl server false
          ((st.accumulated ++ frag).length + 1) (st.accumulated ++ frag)
          { st with
            accumulated := [],
            occupancy := st.occupancy ++ [(st.accumulated ++ frag).length] }
        with
      | exited buf st' =>
        rw [hslice] at hspec
        simp only [SliceSpec] at hspec
        obtain ⟨_, _, hnd, _, hoc, _⟩ := hspec
        obtain ⟨hblt, hsinv'⟩ := hnd (by trivial)
        refine ih { st' with accumulated := buf }
          (sinv_upd_acc server C decl st' buf hsinv') hfr' hblt ?_
        intro o hoo
        have hoo' : o ∈ st'.occupancy := hoo
        rw [hoc] at hoo'
        exact hocc1 o hoo'
      | terminal r st' =>
        rw [hslice] at hspec
        simp only [SliceSpec] at hspec
        obtain ⟨_, hoc, _⟩ := hspec
        intro o hoo
        have hoo' : o ∈ st'.occupancy := hoo
        rw [hoc] at hoo'
        exact hocc1 o hoo'
      | noFuel buf st' =>
        rw [hslice] at hspec
        simp only [SliceSpec] at hspec

/-- C9 counterexample: with chunk size 2, a single 5-byte network read is
accumulated whole, so the observed buffered byte count reaches 5, which
exceeds `2 × C = 4`: the bound does not hold for arbitrary read sizes. -/
theorem memory_bound_cex :
    (ziplinePartialUpload 2 6 (contServer "s")
      [[1, 2, 3, 4, 5]]).2.occupancy = [5] ∧ 2 * 2 < 5 := by
  decide

/-- C9 (amended): provided every single source read delivers at most `C`
bytes, the bytes buffered by the re-chunker (accumulated fragments plus
the working buffer, observed after each accumulation — the loop's maximum)
never exceed `2 × C`; in general the bound is the carried remainder
(less than `C`) plus the largest single read. -/
theorem memory_bound_amended (C decl : Nat) (server : Nat → ChunkReply)
    (frags : List (List Byte)) (hC : 0 < C)
    (hfr : ∀ f ∈ frags, f.length ≤ C) :
    ∀ o ∈ (ziplinePartialUpload C decl server frags).2.occupancy,
      o ≤ 2 * C :=
  runLoop_occ server C decl hC frags initSt (sinv_init server C decl) hfr
    (by simpa [initSt] using hC) (by intro o hoo; simp [initSt] at hoo)

theorem memory_bound_amended_witness :
    0 < 2 ∧ (∀ f ∈ [[1, 2], [3]], List.length f ≤ 2) ∧ 2 ≤ 2 * 2 :=
  ⟨by decide, by decide,
    memory_bound_amended 2 5 (contServer "s") [[1, 2], [3]] (by decide)
      (by decide) 2 (by decide)⟩

theorem sumSizes_take_of_butlast (rs : List ChunkRequest) (C : Nat)
    (h : ∀ i (hh : i + 1 < rs.length),
      (rs.get ⟨i, Nat.lt_of_succ_lt hh⟩).bytes.length = C) :
    ∀ k, k + 1 ≤ rs.length → sumSizes (rs.take k) = k * C := by
  intro k
  induction k with
  | zero => intro _; simp [sumSizes]
  | succ k ihk =>
    intro hk
    rw [sumSizes_take_succ rs k (by omega), ihk (by omega), h k (by omega)]
    ring

theorem ceil_count (C m sz : Nat) (hC : 0 < C) (hsz1 : 1 ≤ sz)
    (hszC : sz ≤ C) : (m * C + sz + C - 1) / C = m + 1 := by
  have h1 : m * C + sz + C - 1 = (sz - 1) + C * (m + 1) := by
    have h2 : C * (m + 1) = C * m + C := by ring
    have h3 : m * C = C * m := Nat.mul_comm _ _
    omega
  rw [h1, Nat.add_mul_div_left _ _ hC, Nat.div_eq_of_lt (by omega)]
  omega

theorem last_size_eq (C m sz L : Nat) (hC : 0 < C) (hsz1 : 1 ≤ sz)
    (hszC : sz ≤ C) (hL : L = m * C + sz) :
    sz = if L % C = 0 then C else L % C := by
  have hmod : L % C = sz % C := by
    rw [hL, Nat.add_comm, Nat.add_mul_mod_self_right]
  by_cases he : sz = C
  · subst he
    rw [hmod, Nat.mod_self]
    simp
  · have hlt : sz < C := by omega
    rw [hmod, Nat.mod_eq_of_lt hlt]
    have hne : ¬(sz = 0) := by omega
    simp [hne]

theorem run_drained_of_continues (C decl : Nat) (server : Nat → ChunkReply)
    (frags : List (List Byte)) (hC : 0 < C)
    (hserv : ∀ n, (server n).continues = true) :
    (ziplinePartialUpload C decl server frags).1 = .drained ∧
    sumSizes (ziplinePartialUpload C decl server frags).2.requests =
      totalLen frags := by
  have h := ziplinePartialUpload_spec server C decl hC frags
  rcases ho : ziplinePartialUpload C decl server frags with ⟨r, st⟩
  rw [ho] at h
  cases r with
  | drained =>
    refine ⟨rfl, ?_⟩
    have h2 := (h : RunSpec _ _ _ _ _ (.drained, st)).2
    simpa [initSt, sumSizes] using h2
  | noFuel => exact absurd h (by simp [RunSpec])
  | completed body =>
    obtain ⟨hsv, hne⟩ := (h : TermInv server C decl (.completed body) st).cls
    have hc := hserv (st.requests.length - 1)
    rw [hsv] at hc
    simp only [ChunkReply.continues, Bool.and_eq_true] at hc
    exact absurd (List.isEmpty_iff.mp hc.1) hne
  | failedPartial =>
    obtain ⟨b, hsv, hbf, hbp⟩ :=
      (h : TermInv server C decl .failedPartial st).cls
    have hc := hserv (st.requests.length - 1)
    rw [hsv] at hc
    simp [ChunkReply.continues, hbf, hbp] at hc
  | failedHttp =>
    have hcls := (h : TermInv server C decl .failedHttp st).cls
    have hc := hserv (st.requests.length - 1)
    rw [(hcls : server (st.requests.length - 1) = .httpError)] at hc
    simp [ChunkReply.continues] at hc

/-- C3 counterexample: a source stream of length `L = 0` produces zero
chunk requests, not the one chunk the claim demands. -/
theorem rechunker_count_cex :
    (ziplinePartialUpload 2 4 (contServer "s") []).2.requests.length = 0 ∧
    totalLen [] = 0 := by
  decide

/-- C3 (amended): for every source stream of length `L > 0` and chunk size
`C` (with the declared length accurate and the server continuing each
chunk), the run drains having emitted `ceil(L/C) = (L+C-1)/C` chunks: all
but the last of size exactly `C`, the last of size `L mod C` (or `C` when
`C` divides `L`), and a chunk is flagged last exactly when it is the final
one; a stream of length `L = 0` emits no chunk at all. -/
theorem rechunker_amended (C : Nat) (server : Nat → ChunkReply)
    (frags : List (List Byte)) (hC : 0 < C)
    (hserv : ∀ n, (server n).continues = true) :
    (ziplinePartialUpload C (totalLen frags) server frags).1 = .drained ∧
    (totalLen frags = 0 →
      (ziplinePartialUpload C (totalLen frags) server frags).2.requests
        = []) ∧
    (0 < totalLen frags →
      (ziplinePartialUpload C (totalLen frags)
          server frags).2.requests.length = (totalLen frags + C - 1) / C ∧
      (∀ i (h : i + 1 < (ziplinePartialUpload C (totalLen frags)
          server frags).2.requests.length),
        ((ziplinePartialUpload C (totalLen frags)
          server frags).2.requests.get
            ⟨i, Nat.lt_of_succ_lt h⟩).bytes.length = C) ∧
      (∀ h0 : 0 < (ziplinePartialUpload C (totalLen frags)
          server frags).2.requests.length,
        ((ziplinePartialUpload C (totalLen frags)
          server frags).2.requests.get
            ⟨(ziplinePartialUpload C (totalLen frags)
                server frags).2.requests.length - 1,
              Nat.sub_lt h0 Nat.one_pos⟩).bytes.length =
          if totalLen frags % C = 0 then C else totalLen frags % C) ∧
      (∀ i (hi : i < (ziplinePartialUpload C (totalLen frags)
          server frags).2.requests.length),
        (((ziplinePartialUpload C (totalLen frags)
          server frags).2.requests.get ⟨i, hi⟩).isLast = true ↔
          i + 1 = (ziplinePartialUpload C (totalLen frags)
            server frags).2.requests.length))) := by
  obtain ⟨hdr, hsum⟩ :=
    run_drained_of_continues C (totalLen frags) server frags hC hserv
  have hreqs := run_reqs C (totalLen frags) server frags hC
  set rs := (ziplinePartialUpload C (totalLen frags) server frags).2.requests
    with hrs
  refine ⟨hdr, ?_, ?_⟩
  · intro hL0
    by_contra hne
    have h1 := sumSizes_pos rs hne
      (fun r hr => (hreqs.size_bounds r hr).1)
    omega
  · intro hLpos
    have hne : rs ≠ [] := by
      intro hnil
      rw [hnil] at hsum
      simp [sumSizes] at hsum
      omega
    have hlen : 0 < rs.length := List.length_pos.mpr hne
    have hsz1 : 1 ≤ (rs.get ⟨rs.length - 1, by omega⟩).bytes.length :=
      (hreqs.size_bounds _ (rs.get_mem _ _)).1
    have hszC : (rs.get ⟨rs.length - 1, by omega⟩).bytes.length ≤ C :=
      (hreqs.size_bounds _ (rs.get_mem _ _)).2
    have htakefull : sumSizes (rs.take (rs.length - 1)) =
        (rs.length - 1) * C :=
      sumSizes_take_of_butlast rs C hreqs.sizes_butlast (rs.length - 1)
        (by omega)
    have hsplit : totalLen frags = (rs.length - 1) * C +
        (rs.get ⟨rs.length - 1, by omega⟩).bytes.length := by
      have hstep := sumSizes_take_succ rs (rs.length - 1) (by omega)
      rw [show rs.length - 1 + 1 = rs.length from by omega,
        List.take_length] at hstep
      omega
    have hpresum : ∀ i, i + 1 ≤ rs.length →
        sumSizes (rs.take (i + 1)) ≤ totalLen frags ∧
        (i + 1 < rs.length → sumSizes (rs.take (i + 1)) < totalLen frags)
        := by
      intro i hi1
      have hparts : sumSizes (rs.take (i + 1)) +
          sumSizes (rs.drop (i + 1)) = totalLen frags := by
        rw [← hsum, ← sumSizes_append, List.take_append_drop]
      constructor
      · omega
      · intro hi2
        have hdne : rs.drop (i + 1) ≠ [] := by
          intro hd
          have := congrArg List.length hd
          simp only [List.length_drop, List.length_nil] at this
          omega
        have := sumSizes_pos (rs.drop (i + 1)) hdne
          (fun r hr => (hreqs.size_bounds r (List.mem_of_mem_drop hr)).1)
        omega
    refine ⟨?_, hreqs.sizes_butlast, ?_, ?_⟩
    · rw [hsplit, ceil_count C (rs.length - 1) _ hC hsz1 hszC]
      omega
    · intro h0
      exact last_size_eq C (rs.length - 1) _ (totalLen frags) hC hsz1 hszC
        hsplit
    · intro i hi
      obtain ⟨hcl, hisl⟩ := hreqs.wf _ (rs.get_mem i hi)
      have hrange := hreqs.range_pos i hi
      have hval : (rs.get ⟨i, hi⟩).rangeStart +
          (rs.get ⟨i, hi⟩).bytes.length = sumSizes (rs.take (i + 1)) := by
        rw [hrange, ← sumSizes_take_succ rs i hi]
      by_cases hfin : i + 1 = rs.length
      case pos =>
        have hfull : sumSizes (rs.take (i + 1)) = totalLen frags := by
          rw [hfin, List.take_length, hsum]
        rw [hisl, hcl]
        constructor
        · intro _
          exact hfin
        · intro _
          split_ifs with hre
          · simp
          · rw [decide_eq_true_eq]
            omega
      case neg =>
        have hfin' : i + 1 < rs.length := by omega
        have hnotref : ¬((rs.get ⟨i, hi⟩).sliceDone = true ∧
            (rs.get ⟨i, hi⟩).restLen = 0) := by
          rintro ⟨hd, h0⟩
          exact hreqs.notref_butlast i hfin' hd h0
        have hlt := (hpresum i (by omega)).2 hfin'
        rw [hisl, hcl, if_neg hnotref]
        constructor
        · intro hdec
          rw [decide_eq_true_eq] at hdec
          omega
        · intro hcontra
          exact absurd hcontra (by omega)

theorem rechunker_amended_witness :
    0 < 2 ∧ (∀ n, (contServer "s" n).continues = true) ∧
    (ziplinePartialUpload 2 (totalLen [[1, 2], [3]]) (contServer "s")
      [[1, 2], [3]]).1 = .drained :=
  ⟨by decide, fun _ => rfl,
    (rechunker_amended 2 (contServer "s") [[1, 2], [3]] (by decide)
      (fun _ => rfl)).1⟩

end ZiplineBot
